import Mathlib

/-!
Verification of the freeciv21 path finder (`src/common/path_finder.cpp`).

Shallow embedding conventions:
* tiles and transporting units are identified by natural numbers (the C++
  code manipulates `tile *` and `unit *`; the multimap of best vertices is
  keyed by the tile pointer, modelled as a `Nat` key with its order);
* C++ `int` values are modelled as `Int` (none of the embedded arithmetic
  relies on machine overflow);
* the external collaborators (map adjacency, movement legality, move rate,
  fuel, hit-point recovery, transport actions) are oracle functions
  gathered in an `Env` structure;
* `vertex::parent` chains are represented by carrying, next to each stored
  vertex, the list of steps from the root (`Node.steps`); the path built by
  `find_path` by walking parent pointers is exactly that list.
-/

namespace PathFinder

/-- The four-criteria cost from the path finder (`detail::cost`):
turns elapsed, move fragments left, hit points left, fuel left. -/
structure Cost where
  turns : Int
  moves_left : Int
  health : Int
  fuel_left : Int
deriving DecidableEq

/-- `detail::cost::comparable`: the comparison with `other` is unambiguous
when all four criteria differences go in the same direction. The source
names the four differences `a = other.turns - turns`,
`b = moves_left - other.moves_left`, `c = health - other.health` and
`d = fuel_left - other.fuel_left`; they are inlined here. -/
def Cost.comparable (c other : Cost) : Prop :=
  (other.turns - c.turns ≤ 0 ∧ c.moves_left - other.moves_left ≤ 0 ∧
      c.health - other.health ≤ 0 ∧ c.fuel_left - other.fuel_left ≤ 0) ∨
    (0 ≤ other.turns - c.turns ∧ 0 ≤ c.moves_left - other.moves_left ∧
      0 ≤ c.health - other.health ∧ 0 ≤ c.fuel_left - other.fuel_left)

instance instDecCostComparable (c other : Cost) : Decidable (c.comparable other) := by
  unfold Cost.comparable
  infer_instance

/-- `detail::cost::operator==` (written in the source through two swapped
`std::tie` tuples; componentwise it is equality of all four fields). -/
def Cost.eqCpp (c other : Cost) : Prop :=
  c.turns = other.turns ∧ other.moves_left = c.moves_left ∧
    other.health = c.health ∧ other.fuel_left = c.fuel_left

instance instDecCostEqCpp (c other : Cost) : Decidable (c.eqCpp other) := by
  unfold Cost.eqCpp
  infer_instance

/-- `detail::cost::operator<`: lexicographic comparison of the tuple
`(turns, other.moves_left, other.health, other.fuel_left)` with
`(other.turns, moves_left, health, fuel_left)`. -/
def Cost.lt (c other : Cost) : Prop :=
  c.turns < other.turns ∨
    (c.turns = other.turns ∧ (other.moves_left < c.moves_left ∨
      (other.moves_left = c.moves_left ∧ (other.health < c.health ∨
        (other.health = c.health ∧ other.fuel_left < c.fuel_left)))))

instance instDecCostLt (c other : Cost) : Decidable (c.lt other) := by
  unfold Cost.lt
  infer_instance

/-- Pareto relation used to phrase the spec claims: cost `a` is at least as
good as cost `b` in all four criteria (fewer or equal turns, at least as
many moves, health and fuel). -/
def Cost.dominatesEq (a b : Cost) : Prop :=
  a.turns ≤ b.turns ∧ b.moves_left ≤ a.moves_left ∧
    b.health ≤ a.health ∧ b.fuel_left ≤ a.fuel_left

instance instDecCostDom (a b : Cost) : Decidable (a.dominatesEq b) := by
  unfold Cost.dominatesEq
  infer_instance

theorem Cost.comparable_iff_dom (a b : Cost) :
    a.comparable b ↔ a.dominatesEq b ∨ b.dominatesEq a := by
  cases a; cases b
  simp only [Cost.comparable, Cost.dominatesEq]
  omega

theorem Cost.lt_of_dom_ne (a b : Cost) (h : a.dominatesEq b) (hne : a ≠ b) :
    a.lt b := by
  cases a; cases b
  simp only [Cost.dominatesEq] at h
  simp only [ne_eq, Cost.mk.injEq] at hne
  simp only [Cost.lt]
  omega

theorem Cost.dom_of_comparable_lt (a b : Cost) (hc : a.comparable b)
    (h : a.lt b) : a.dominatesEq b := by
  cases a; cases b
  simp only [Cost.comparable] at hc
  simp only [Cost.lt] at h
  simp only [Cost.dominatesEq]
  omega

theorem Cost.eq_of_comparable_not_lt (a b : Cost) (hc : a.comparable b)
    (h1 : ¬ a.lt b) (h2 : ¬ b.lt a) : a = b := by
  cases a; cases b
  simp only [Cost.comparable] at hc
  simp only [Cost.lt] at h1 h2
  simp only [Cost.mk.injEq]
  omega

/-- A search vertex (`detail::vertex`): location, transporter the unit is
loaded in (if any), the moved-this-turn flag and the accumulated cost.
The `parent` pointer and the producing `order` are not part of the
dominance or equality logic; the driver model keeps the corresponding
root-to-vertex step list alongside (see `Node`). -/
structure Vertex where
  location : Nat
  loaded : Option Nat
  moved : Bool
  cost : Cost
deriving DecidableEq

/-- `detail::vertex::comparable`: the `(location, loaded, moved)` triples
match and the costs are comparable. -/
def Vertex.comparable (v other : Vertex) : Prop :=
  (v.location = other.location ∧ v.loaded = other.loaded ∧ v.moved = other.moved) ∧
    v.cost.comparable other.cost

instance instDecVertexComparable (v other : Vertex) : Decidable (v.comparable other) := by
  unfold Vertex.comparable
  infer_instance

/-- `detail::vertex::operator==` exactly as written in the source:
`std::tie(location, loaded, moved, cost) == std::tie(other.location, loaded,
moved, other.cost)`. The second and third components compare the fields of
`this` with themselves, so only `location` and `cost` are actually
constrained. -/
def Vertex.eqCpp (v other : Vertex) : Prop :=
  v.location = other.location ∧ v.loaded = v.loaded ∧ v.moved = v.moved ∧
    v.cost.eqCpp other.cost

instance instDecVertexEqCpp (v other : Vertex) : Decidable (v.eqCpp other) := by
  unfold Vertex.eqCpp
  infer_instance

theorem Vertex.comparable_symm (v w : Vertex) (h : v.comparable w) : w.comparable v := by
  obtain ⟨⟨h1, h2, h3⟩, h4⟩ := h
  refine ⟨⟨h1.symm, h2.symm, h3.symm⟩, ?_⟩
  rcases (Cost.comparable_iff_dom v.cost w.cost).mp h4 with h | h
  · exact (Cost.comparable_iff_dom w.cost v.cost).mpr (Or.inr h)
  · exact (Cost.comparable_iff_dom w.cost v.cost).mpr (Or.inl h)

/-- Claim C2. The source compares vertices by `location` and `cost` only:
the `loaded` and `moved` components of the `std::tie` comparison are
self-comparisons. Two vertices differing only in `loaded` (or only in
`moved`) are reported equal by `vertex::operator==`, contradicting the
claim that equality requires `loaded` and `moved` to match. -/
theorem C2_vertex_equality_ignores_loaded_and_moved :
    Vertex.eqCpp ⟨0, none, false, ⟨0, 3, 2, 1⟩⟩ ⟨0, some 7, false, ⟨0, 3, 2, 1⟩⟩ ∧
      (some 7 : Option Nat) ≠ none ∧
    Vertex.eqCpp ⟨0, none, false, ⟨0, 3, 2, 1⟩⟩ ⟨0, none, true, ⟨0, 3, 2, 1⟩⟩ ∧
      true ≠ false := by
  decide

/-- Claim C7. The strict order `cost::operator<` is the lexicographic
comparison on (turns ascending, moves_left descending, health descending,
fuel_left descending), and it is irreflexive, transitive and total on
distinct costs. -/
theorem C7_cost_lt_strict_total_order :
    (∀ a b : Cost, a.lt b ↔
      (a.turns < b.turns ∨ (a.turns = b.turns ∧ (b.moves_left < a.moves_left ∨
        (a.moves_left = b.moves_left ∧ (b.health < a.health ∨
          (a.health = b.health ∧ b.fuel_left < a.fuel_left))))))) ∧
    (∀ a : Cost, ¬ a.lt a) ∧
    (∀ a b c : Cost, a.lt b → b.lt c → a.lt c) ∧
    (∀ a b : Cost, a ≠ b → a.lt b ∨ b.lt a) := by
  refine ⟨?_, ?_, ?_, ?_⟩
  · intro a b
    cases a; cases b
    simp only [Cost.lt]
    omega
  · intro a
    cases a
    simp only [Cost.lt]
    omega
  · intro a b c hab hbc
    cases a; cases b; cases c
    simp only [Cost.lt] at *
    omega
  · intro a b hne
    cases a; cases b
    simp only [ne_eq, Cost.mk.injEq] at hne
    simp only [Cost.lt]
    omega

theorem C7_witness :
    Cost.lt ⟨0, 5, 0, 0⟩ ⟨1, 9, 9, 9⟩ ∨ Cost.lt ⟨1, 9, 9, 9⟩ ⟨0, 5, 0, 0⟩ :=
  C7_cost_lt_strict_total_order.2.2.2 ⟨0, 5, 0, 0⟩ ⟨1, 9, 9, 9⟩ (by decide)

/-- Claim C10. `cost::comparable` is reflexive and symmetric. -/
theorem C10_comparable_refl_symm :
    (∀ a : Cost, a.comparable a) ∧
    (∀ a b : Cost, a.comparable b ↔ b.comparable a) := by
  constructor
  · intro a
    cases a
    simp only [Cost.comparable]
    omega
  · intro a b
    cases a; cases b
    simp only [Cost.comparable]
    omega

/-- The unit fields read or written by the path finder (`struct unit` as
used here): tile, transporter, the client-side transported_by id, the
moved flag, fuel, hit points, move fragments left and the scenario `stay`
flag. Further unit properties (its type, owner, ...) are only consulted by
the external oracles, which take the whole probe as argument. -/
structure UnitState where
  tile : Nat
  transporter : Option Nat
  transported_by : Int
  moved : Bool
  fuel : Int
  hp : Int
  moves_left : Int
  stay : Bool
deriving DecidableEq

/-- `detail::vertex::fill_probe`: overwrite the path finding related
properties of `probe` with those of the vertex. -/
def Vertex.fill_probe (v : Vertex) (probe : UnitState) : UnitState :=
  { probe with
    tile := v.location
    transporter := v.loaded
    transported_by := match v.loaded with | some i => (i : Int) | none => -1
    moved := v.moved
    fuel := v.cost.fuel_left
    hp := v.cost.health
    moves_left := v.cost.moves_left }

def ACTION_TRANSPORT_BOARD : Nat := 0
def ACTION_TRANSPORT_EMBARK : Nat := 1
def ACTION_TRANSPORT_ALIGHT : Nat := 2
def ACTION_TRANSPORT_DISEMBARK1 : Nat := 3
def ACTION_TRANSPORT_DISEMBARK2 : Nat := 4

/-- The external collaborators of the path finder, as oracle functions:
map adjacency (`adjc_dir_iterate` / `adjc_iterate`), tile visibility
(`target->terrain == nullptr`), movement legality and cost
(`unit_can_move_to_tile`, `map_move_cost_unit`), the movement rate
(`unit_move_rate`), fuel (`utype_fuel`, `is_unit_being_refueled`),
hit-point recovery (the hp field of the probe after
`unit_restore_hitpoints`), transports (`transporter_for_unit`,
`is_action_enabled_unit_on_unit`, `is_action_enabled_unit_on_tile`) and
action move costs (`unit_pays_mp_for_action`). -/
structure Env where
  neighborsDir : Nat → List (Nat × Nat)
  visible : Nat → Bool
  can_move_to : UnitState → Nat → Bool
  map_move_cost : UnitState → Nat → Int
  move_rate : UnitState → Int
  fuelCapacity : Int
  refueled : UnitState → Bool
  restored_hp : UnitState → Int
  transporter_for : UnitState → Option Nat
  action_on_unit : Nat → UnitState → Nat → Bool
  action_on_tile : Nat → UnitState → Nat → Bool
  neighbors : Nat → List Nat
  pays_mp : Nat → UnitState → Int

/-- The tail of the turn-change block of `maybe_insert_vertex`: hit-point
loss and recovery on the (fuel-updated) probe, then the start-of-turn
reset of the `moved` flag. Returns `none` when the unit would die. -/
def hp_step (env : Env) (probe : UnitState) (v : Vertex) : Option Vertex :=
  let hp := env.restored_hp probe
  if hp ≤ 0 then none
  else some { v with cost := { v.cost with health := hp }, moved := false }

/-- Probe with its fuel overwritten (the in-place `probe.fuel` updates of
the turn-change block). -/
def probeWithFuel (p : UnitState) (x : Int) : UnitState := { p with fuel := x }

/-- The turn-change block at the head of `maybe_insert_vertex` (lines
164-204): when the candidate has no moves left, increment the turn
counter, reset the move allowance from `unit_move_rate`, handle fuel
(refuel to capacity, or die at fuel <= 1, or consume one unit) for
fuel-using unit types, then apply hit-point recovery and the
start-of-turn `moved` reset. `none` means no vertex is generated. -/
def turn_change (env : Env) (u : UnitState) (v : Vertex) : Option Vertex :=
  if v.cost.moves_left ≤ 0 then
    let probe := v.fill_probe u
    let c1 : Cost :=
      { v.cost with turns := v.cost.turns + 1, moves_left := env.move_rate probe }
    let insert1 : Vertex := { v with cost := c1 }
    if env.fuelCapacity ≠ 0 then
      if env.refueled probe then
        hp_step env (probeWithFuel probe env.fuelCapacity)
          { insert1 with cost := { insert1.cost with fuel_left := env.fuelCapacity } }
      else if probe.fuel ≤ 1 then none
      else
        hp_step env (probeWithFuel probe (probe.fuel - 1))
          { insert1 with cost := { insert1.cost with fuel_left := insert1.cost.fuel_left - 1 } }
    else hp_step env probe insert1
  else some v

/-- One order of the path (`unit_order`), reduced to the variants the path
finder emits. -/
inductive Order where
  | move (dir : Nat)
  | full_mp
  | performAction (action : Nat) (target : Nat)
deriving DecidableEq

/-- One step of the returned path: the vertex location, its turn count and
the order that produced it (the source stores the turn count twice). -/
structure Step where
  location : Nat
  turns : Int
  order : Order
deriving DecidableEq

/-- A vertex as stored by the driver, together with the steps from the
root (the materialisation of the `parent` chain). -/
structure Node where
  v : Vertex
  steps : List Step
deriving DecidableEq

/-- The erase-or-break scan of `maybe_insert_vertex` over the bucket of
`best_vertices` at the candidate location (lines 210-225), generic in the
stored entry type (entries are compared through their vertex): walk the
bucket; erase every comparable entry that the candidate strictly improves
on; on the first comparable entry that is not strictly worse, stop and
report that the candidate must not be inserted. Returns the remaining
bucket and the do_insert flag. -/
def admitScan (f : α → Vertex) (insert : Vertex) : List α → List α × Bool
  | [] => ([], true)
  | e :: rest =>
    if (f e).comparable insert then
      if Cost.lt insert.cost (f e).cost then admitScan f insert rest
      else (e :: rest, false)
    else
      let r := admitScan f insert rest
      (e :: r.1, r.2)

/-- The bucket at the candidate location after `maybe_insert_vertex`, at
the level of plain vertices: the scan above followed, when the candidate
survived, by its insertion (the multimap emplaces at the end of the equal
range). -/
def bucketAfterAdmit (insert : Vertex) (bucket : List Vertex) : List Vertex :=
  let r := admitScan id insert bucket
  if r.2 then r.1 ++ [insert] else r.1

/-- The multimap `best_vertices`, modelled as a list of (tile key, node)
entries kept in key order. -/
def bucketOf (best : List (Nat × Node)) (k : Nat) : List Node :=
  (best.filter (fun e => e.1 = k)).map (fun e => e.2)

/-- Replace the bucket at key `k`, keeping every other entry. -/
def mmSetBucket (best : List (Nat × Node)) (k : Nat) (bucket : List Node) :
    List (Nat × Node) :=
  best.filter (fun e => e.1 < k) ++ bucket.map (fun n => (k, n)) ++
    best.filter (fun e => k < e.1)

/-- The search state held by `path_finder_private`: the unit (modelled
from the spec as the current state of the searched unit, see
`insert_initial_vertex`), the multimap of best vertices and the priority
queue (kept in arrival order; the minimum is selected at `top`). -/
structure PFState where
  u : UnitState
  best : List (Nat × Node)
  queue : List Node
deriving DecidableEq

/-- `maybe_insert_vertex` (lines 158-233): apply the turn-change block,
then scan the bucket at the candidate location and, if the candidate is
not dominated, push it to the queue and emplace it in the multimap. The
caller passes the steps of the parent vertex and the order that produced
the candidate, from which the stored step list is extended. -/
def maybe_insert_vertex (env : Env) (st : PFState) (parentSteps : List Step)
    (ord : Order) (v : Vertex) : PFState :=
  match turn_change env st.u v with
  | none => st
  | some insert =>
    let bucket := bucketOf st.best v.location
    let r := admitScan Node.v insert bucket
    if r.2 then
      let node : Node := ⟨insert, parentSteps ++ [⟨insert.location, insert.cost.turns, ord⟩]⟩
      { st with queue := st.queue ++ [node],
                best := mmSetBucket st.best v.location (r.1 ++ [node]) }
    else { st with best := mmSetBucket st.best v.location r.1 }

/-- `vertex::child_for_action`: a copy of the vertex whose move allowance
is replaced by the action move cost (the order and target are recorded by
the caller of `maybe_insert_vertex`). -/
def child_for_action (v : Vertex) (env : Env) (action : Nat) (probe : UnitState) : Vertex :=
  { v with cost := { v.cost with moves_left := env.pays_mp action probe } }

/-- The candidates generated by `attempt_move` (lines 239-273): for each
visible adjacent tile the unit may move to, a vertex at that tile with
the move cost (capped at the remaining moves) subtracted. Loaded units
generate nothing. -/
def move_candidates (env : Env) (u : UnitState) (source : Vertex) :
    List (Order × Vertex) :=
  if source.loaded.isSome then []
  else
    let probe := source.fill_probe u
    (env.neighborsDir source.location).filterMap (fun td =>
      if env.visible td.1 = false then none
      else if env.can_move_to probe td.1 then
        some (Order.move td.2,
          { source with
            location := td.1
            moved := true
            cost := { source.cost with moves_left :=
              source.cost.moves_left - min (env.map_move_cost probe td.1) probe.moves_left } })
      else none)

/-- The candidate generated by `attempt_full_mp` (lines 280-288): a copy
of the source with no moves left, forcing the end-of-turn logic. -/
def full_mp_candidates (source : Vertex) : List (Order × Vertex) :=
  [(Order.full_mp, { source with cost := { source.cost with moves_left := 0 } })]

/-- The candidates generated by `attempt_load` (lines 294-333): board a
transport on the same tile, and embark into a transport on each adjacent
tile (with the move cost into that tile subtracted). -/
def load_candidates (env : Env) (u : UnitState) (source : Vertex) :
    List (Order × Vertex) :=
  let probe := source.fill_probe u
  let same :=
    match env.transporter_for probe with
    | some transport =>
      if env.action_on_unit ACTION_TRANSPORT_BOARD probe transport then
        [(Order.performAction ACTION_TRANSPORT_BOARD probe.tile,
          { child_for_action source env ACTION_TRANSPORT_BOARD probe with
            loaded := some transport })]
      else []
    | none => []
  same ++ (env.neighbors probe.tile).filterMap (fun target =>
    match env.transporter_for { probe with tile := target } with
    | some transport =>
      if env.action_on_unit ACTION_TRANSPORT_EMBARK probe transport then
        let c := child_for_action source env ACTION_TRANSPORT_EMBARK probe
        some (Order.performAction ACTION_TRANSPORT_EMBARK target,
          { c with
            cost := { c.cost with moves_left :=
              c.cost.moves_left - env.map_move_cost probe target }
            moved := true
            loaded := some transport })
      else none
    | none => none)

/-- The candidates generated by `attempt_unload` (lines 339-385): alight
in place, and the two disembark variants towards each adjacent tile. Only
applicable when the source vertex is loaded. -/
def unload_candidates (env : Env) (u : UnitState) (source : Vertex) :
    List (Order × Vertex) :=
  let probe := source.fill_probe u
  match probe.transporter with
  | none => []
  | some tr =>
    let same :=
      if env.action_on_unit ACTION_TRANSPORT_ALIGHT probe tr then
        [(Order.performAction ACTION_TRANSPORT_ALIGHT probe.tile,
          { child_for_action source env ACTION_TRANSPORT_ALIGHT probe with
            loaded := none })]
      else []
    same ++ (env.neighbors probe.tile).flatMap (fun target =>
      let d1 :=
        if env.action_on_tile ACTION_TRANSPORT_DISEMBARK1 probe target then
          let c := child_for_action source env ACTION_TRANSPORT_DISEMBARK1 probe
          [(Order.performAction ACTION_TRANSPORT_DISEMBARK1 target,
            { c with
              moved := true
              loaded := none
              cost := { c.cost with moves_left :=
                c.cost.moves_left - env.map_move_cost probe target } })]
        else []
      let d2 :=
        if env.action_on_tile ACTION_TRANSPORT_DISEMBARK2 probe target then
          let c := child_for_action source env ACTION_TRANSPORT_DISEMBARK2 probe
          [(Order.performAction ACTION_TRANSPORT_DISEMBARK2 target,
            { c with
              moved := true
              loaded := none
              cost := { c.cost with moves_left :=
                c.cost.moves_left - env.map_move_cost probe target } })]
        else []
      d1 ++ d2)

/-- All candidates proposed for one settled vertex, in the order the
driver runs the four expansion rules (move, full_mp, load, unload). -/
def expansion_candidates (env : Env) (u : UnitState) (source : Vertex) :
    List (Order × Vertex) :=
  move_candidates env u source ++ full_mp_candidates source ++
    load_candidates env u source ++ unload_candidates env u source

/-- Running the four expansion rules on a settled vertex: every candidate
goes through `maybe_insert_vertex`, with the settled vertex as parent. -/
def expand (env : Env) (st : PFState) (source : Node) : PFState :=
  (expansion_candidates env st.u source.v).foldl
    (fun st p => maybe_insert_vertex env st source.steps p.1 p.2) st

/-- `std::priority_queue::top` with the `vertex::operator>` comparator:
the minimum-cost element (the earliest among equal minima). -/
def queueTop : List Node → Option Node
  | [] => none
  | n :: rest => some (rest.foldl (fun b x => if Cost.lt x.v.cost b.v.cost then x else b) n)

/-- Remove the first occurrence of a node from the queue (used to model
`pop` of the element returned by `top`). -/
def queueRemove (n : Node) : List Node → List Node
  | [] => []
  | x :: rest => if x = n then rest else x :: queueRemove n rest

/-- The staleness lookup of `run_search` (lines 418-430), exactly as the
source performs it: `std::find_if` over the equal range of the popped
vertex location, comparing entries with `vertex::operator==`; the result
is then compared against `best_vertices.end()`. When no entry matches,
`find_if` returns the end of the equal range, which coincides with the
container end only when no entry with a larger key exists; otherwise the
branch is not taken and the entry right after the bucket (the first entry
with a larger key) is used as the parent for expansion. `none` means the
popped vertex is skipped. -/
def staleLookup (best : List (Nat × Node)) (v : Vertex) : Option Node :=
  match (bucketOf best v.location).find? (fun n => decide (n.v.eqCpp v)) with
  | some n => some n
  | none =>
    match (best.filter (fun e => v.location < e.1)).head? with
    | some e => some e.2
    | none => none

/-- The Dijkstra loop of `run_search` (lines 405-437), with an explicit
iteration bound: take the best queue vertex; if it sits on the
destination, report success without popping it; otherwise pop it, run the
staleness lookup and, unless it is skipped, expand the entry the lookup
produced. `none` means the bound ran out. -/
def searchLoop (env : Env) (dest : Nat) : Nat → PFState → Option Bool × PFState
  | 0, st => (none, st)
  | bound + 1, st =>
    match queueTop st.queue with
    | none => (some false, st)
    | some v =>
      if v.v.location = dest then (some true, st)
      else
        let st1 := { st with queue := queueRemove v st.queue }
        match staleLookup st1.best v.v with
        | none => searchLoop env dest bound st1
        | some parent => searchLoop env dest bound (expand env st1 parent)

/-- The result of `run_search`: whether a path was found (`none` when the
iteration bound ran out), the updated search state, and whether the
early-exit check read the top of an empty queue (undefined behaviour in
the source; the model records the event and arbitrarily falls through to
the main loop). -/
structure SearchOutcome where
  found : Option Bool
  state : PFState
  emptyTopRead : Bool
deriving DecidableEq

/-- `run_search` (lines 394-440): first the early-exit check. When the
destination already has an entry in `best_vertices` and the tip of the
queue is not cheaper, report success; then run the Dijkstra loop. -/
def run_search (env : Env) (bound : Nat) (st : PFState) (dest : Nat) : SearchOutcome :=
  match (bucketOf st.best dest).head? with
  | some e =>
    match queueTop st.queue with
    | some t =>
      if ¬ Cost.lt t.v.cost e.v.cost then ⟨some true, st, false⟩
      else
        let r := searchLoop env dest bound st
        ⟨r.1, r.2, false⟩
    | none =>
      let r := searchLoop env dest bound st
      ⟨r.1, r.2, true⟩
  | none =>
    let r := searchLoop env dest bound st
    ⟨r.1, r.2, false⟩

/-- `insert_initial_vertex` (lines 142-152): push and emplace the starting
vertex, built from the unit. The cost initializer in the source is
written with five entries, {0, 0, unit.moves_left, unit.hp, unit.fuel},
against the four-field cost aggregate: positionally turns = 0,
moves_left = 0, health = unit.moves_left, fuel_left = unit.hp, with the
unit.fuel entry in excess (as written the aggregate initialisation is
ill-formed; the embedding keeps the first four initializers). -/
def insert_initial_vertex (st : PFState) : PFState :=
  let v : Vertex :=
    { location := st.u.tile, loaded := st.u.transporter, moved := st.u.moved,
      cost := { turns := 0, moves_left := 0, health := st.u.moves_left,
                fuel_left := st.u.hp } }
  let node : Node := ⟨v, []⟩
  { st with queue := st.queue ++ [node],
            best := mmSetBucket st.best v.location (bucketOf st.best v.location ++ [node]) }

/-- The `path_finder_private` constructor: capture the unit and insert the
initial vertex. -/
def construct (u : UnitState) : PFState :=
  insert_initial_vertex { u := u, best := [], queue := [] }

/-- `unit_changed` (lines 465-475): clear the multimap, drain the queue
and reinsert the initial vertex. Modelled from the spec for the part not
under src/: the unit member of `path_finder_private` is declared in the
missing header; the spec requires the reseeded root to be captured from
the freshly notified unit state, so the member is modelled as the current
unit state `u'`. -/
def unit_changed (_st : PFState) (u' : UnitState) : PFState :=
  insert_initial_vertex { u := u', best := [], queue := [] }

/-- The selection of the cheapest destination vertex in `find_path`
(lines 497-503): scan the bucket, keeping the entry with the lowest cost
(the earliest among ties). -/
def selMin (acc : Option Node) (n : Node) : Option Node :=
  match acc with
  | none => some n
  | some b => if Cost.lt n.v.cost b.v.cost then some n else some b

/-- The result of `find_path`: the step list (empty for no path) and the
retained search state, plus the recorded empty-queue-top event. -/
structure PathResult where
  steps : List Step
  state : PFState
  emptyTopRead : Bool
deriving DecidableEq

/-- `find_path` (lines 480-517): assert the destination is not null
(returning an empty path), return an empty path for a unit frozen by
scenario or already at the destination; otherwise run the search and, on
success, select the cheapest vertex of the destination bucket and return
its steps. When the search succeeds but the destination bucket is empty
the source would dereference a null pointer; the model returns an empty
path in that (unreachable, see the invariants) case. -/
def find_path (env : Env) (bound : Nat) (st : PFState) (dest : Option Nat) : PathResult :=
  match dest with
  | none => ⟨[], st, false⟩
  | some d =>
    if st.u.stay then ⟨[], st, false⟩
    else if st.u.tile = d then ⟨[], st, false⟩
    else
      let r := run_search env bound st d
      match r.found with
      | some true =>
        match (bucketOf r.state.best d).foldl selMin none with
        | some b => ⟨b.steps, r.state, r.emptyTopRead⟩
        | none => ⟨[], r.state, r.emptyTopRead⟩
      | _ => ⟨[], r.state, r.emptyTopRead⟩

theorem Cost.lt_irrefl (a : Cost) : ¬ a.lt a := by
  cases a
  simp only [Cost.lt]
  omega

/-- Squeeze fact used for the frontier invariant: if cost B is comparable
to I without I being strictly better, and E is comparable to I with I
strictly better, then B is comparable to E and strictly better. -/
theorem Cost.squeeze (B I E : Cost) (h1 : B.comparable I) (h2 : ¬ I.lt B)
    (h3 : E.comparable I) (h4 : I.lt E) : B.comparable E ∧ B.lt E := by
  cases B; cases I; cases E
  simp only [Cost.comparable, Cost.lt] at *
  omega

theorem Vertex.eq_of_parts (a b : Vertex) (h1 : a.location = b.location)
    (h2 : a.loaded = b.loaded) (h3 : a.moved = b.moved) (h4 : a.cost = b.cost) :
    a = b := by
  cases a; cases b
  simp only [Vertex.mk.injEq]
  exact ⟨h1, h2, h3, h4⟩

theorem admitScan_subset (f : α → Vertex) (ins : Vertex) (l : List α) :
    ∀ x ∈ (admitScan f ins l).1, x ∈ l := by
  induction l with
  | nil => simp [admitScan]
  | cons e rest ih =>
    intro x hx
    by_cases hcomp : (f e).comparable ins
    · by_cases hlt : Cost.lt ins.cost (f e).cost
      · simp only [admitScan, if_pos hcomp, if_pos hlt] at hx
        exact List.mem_cons_of_mem e (ih x hx)
      · simp only [admitScan, if_pos hcomp, if_neg hlt] at hx
        exact hx
    · simp only [admitScan, if_neg hcomp] at hx
      rcases List.mem_cons.mp hx with h | h
      · exact h ▸ List.mem_cons_self e rest
      · exact List.mem_cons_of_mem e (ih x h)

theorem admitScan_false_ne_nil (f : α → Vertex) (ins : Vertex) (l : List α)
    (h : (admitScan f ins l).2 = false) : (admitScan f ins l).1 ≠ [] := by
  induction l with
  | nil => simp [admitScan] at h
  | cons e rest ih =>
    by_cases hcomp : (f e).comparable ins
    · by_cases hlt : Cost.lt ins.cost (f e).cost
      · simp only [admitScan, if_pos hcomp, if_pos hlt] at h ⊢
        exact ih h
      · simp only [admitScan, if_pos hcomp, if_neg hlt]
        exact List.cons_ne_nil e rest
    · simp only [admitScan, if_neg hcomp]
      exact List.cons_ne_nil e _

/-- When every comparable entry is strictly improved on, the scan erases
exactly the comparable entries and allows insertion. -/
theorem admitScan_all_strict (f : α → Vertex) (ins : Vertex) (l : List α)
    (h : ∀ e ∈ l, (f e).comparable ins → Cost.lt ins.cost (f e).cost) :
    (admitScan f ins l).2 = true ∧
      (∀ x, x ∈ (admitScan f ins l).1 ↔ (x ∈ l ∧ ¬ (f x).comparable ins)) := by
  induction l with
  | nil => simp [admitScan]
  | cons e rest ih =>
    have hrest : ∀ e ∈ rest, (f e).comparable ins → Cost.lt ins.cost (f e).cost :=
      fun x hx => h x (List.mem_cons_of_mem e hx)
    by_cases hcomp : (f e).comparable ins
    · have hlt := h e (List.mem_cons_self e rest) hcomp
      simp only [admitScan, if_pos hcomp, if_pos hlt]
      obtain ⟨h1, h2⟩ := ih hrest
      refine ⟨h1, fun x => ?_⟩
      rw [h2 x, List.mem_cons]
      constructor
      · rintro ⟨hx, hnc⟩
        exact ⟨Or.inr hx, hnc⟩
      · rintro ⟨hx | hx, hnc⟩
        · exact absurd (hx ▸ hcomp) hnc
        · exact ⟨hx, hnc⟩
    · simp only [admitScan, if_neg hcomp]
      obtain ⟨h1, h2⟩ := ih hrest
      refine ⟨h1, fun x => ?_⟩
      simp only [List.mem_cons]
      constructor
      · rintro (rfl | hx)
        · exact ⟨Or.inl rfl, hcomp⟩
        · obtain ⟨hx1, hx2⟩ := (h2 x).mp hx
          exact ⟨Or.inr hx1, hx2⟩
      · rintro ⟨rfl | hx, hnc⟩
        · exact Or.inl rfl
        · exact Or.inr ((h2 x).mpr ⟨hx, hnc⟩)

/-- When no entry is strictly improved on and some comparable entry
exists, the scan leaves the bucket untouched and refuses insertion. -/
theorem admitScan_blocked (f : α → Vertex) (ins : Vertex) (l : List α)
    (hno : ∀ e ∈ l, ¬ ((f e).comparable ins ∧ Cost.lt ins.cost (f e).cost))
    (hex : ∃ e ∈ l, (f e).comparable ins) :
    admitScan f ins l = (l, false) := by
  induction l with
  | nil => simp at hex
  | cons e rest ih =>
    by_cases hcomp : (f e).comparable ins
    · have hnlt : ¬ Cost.lt ins.cost (f e).cost :=
        fun hlt => hno e (List.mem_cons_self e rest) ⟨hcomp, hlt⟩
      simp only [admitScan, if_pos hcomp, if_neg hnlt]
    · obtain ⟨b, hb, hcb⟩ := hex
      rcases List.mem_cons.mp hb with rfl | hb
      · exact absurd hcb hcomp
      · have := ih (fun x hx => hno x (List.mem_cons_of_mem e hx)) ⟨b, hb, hcb⟩
        simp only [admitScan, if_neg hcomp, this]

/-- Claim C4. Starting from a bucket with no comparable pair where one is
strictly better, `maybe_insert_vertex`'s admission scan leaves a bucket
with no two distinct comparable vertices where one's cost is at least as
good in all four criteria; a comparable candidate that is not strictly
better than some existing entry is discarded (bucket unchanged), and every
existing entry the candidate strictly improves on is evicted. -/
theorem C4_admission_preserves_frontier (ins : Vertex) (bucket : List Vertex)
    (hpre : ∀ a ∈ bucket, ∀ b ∈ bucket, a.comparable b → ¬ Cost.lt a.cost b.cost) :
    (∀ a ∈ bucketAfterAdmit ins bucket, ∀ b ∈ bucketAfterAdmit ins bucket,
      a ≠ b → a.comparable b → ¬ a.cost.dominatesEq b.cost) ∧
    ((∃ e ∈ bucket, e.comparable ins ∧ ¬ Cost.lt ins.cost e.cost) →
      bucketAfterAdmit ins bucket = bucket) ∧
    (∀ e ∈ bucket, e.comparable ins → Cost.lt ins.cost e.cost →
      e ∉ bucketAfterAdmit ins bucket) := by
  by_cases hex : ∃ e ∈ bucket, e.comparable ins ∧ ¬ Cost.lt ins.cost e.cost
  · -- a comparable, not strictly worse entry blocks the insertion
    obtain ⟨b, hb, hcb, hnb⟩ := hex
    have hno : ∀ e ∈ bucket, ¬ (e.comparable ins ∧ Cost.lt ins.cost e.cost) := by
      rintro e he ⟨hce, hle⟩
      obtain ⟨hcmp, hlt⟩ := Cost.squeeze b.cost ins.cost e.cost hcb.2 hnb hce.2 hle
      have hbe : b.comparable e :=
        ⟨⟨hcb.1.1.trans hce.1.1.symm, hcb.1.2.1.trans hce.1.2.1.symm,
          hcb.1.2.2.trans hce.1.2.2.symm⟩, hcmp⟩
      exact hpre b hb e he hbe hlt
    have hscan : admitScan id ins bucket = (bucket, false) :=
      admitScan_blocked id ins bucket hno ⟨b, hb, hcb⟩
    have hres : bucketAfterAdmit ins bucket = bucket := by
      simp only [bucketAfterAdmit, hscan]
      simp
    refine ⟨?_, fun _ => hres, ?_⟩
    · intro a ha c hc hne hcomp
      rw [hres] at ha hc
      intro _
      have h1 := hpre a ha c hc hcomp
      have h2 := hpre c hc a ha (Vertex.comparable_symm a c hcomp)
      have hcost := Cost.eq_of_comparable_not_lt a.cost c.cost hcomp.2 h1 h2
      exact hne (Vertex.eq_of_parts a c hcomp.1.1 hcomp.1.2.1 hcomp.1.2.2 hcost)
    · intro e he hce hlt
      exact absurd ⟨hce, hlt⟩ (hno e he)
  · -- every comparable entry is strictly improved on: they are all evicted
    have hall : ∀ e ∈ bucket, e.comparable ins → Cost.lt ins.cost e.cost := by
      intro e he hce
      by_contra hn
      exact hex ⟨e, he, hce, hn⟩
    obtain ⟨htrue, hmem⟩ := admitScan_all_strict id ins bucket hall
    have hres : bucketAfterAdmit ins bucket =
        (admitScan id ins bucket).1 ++ [ins] := by
      simp only [bucketAfterAdmit, htrue, if_true]
    refine ⟨?_, fun h => absurd h hex, ?_⟩
    · intro a ha c hc hne hcomp
      rw [hres, List.mem_append, List.mem_singleton] at ha hc
      intro _
      rcases ha with ha | ha'
      · rcases hc with hc | hc'
        · obtain ⟨ha1, ha2⟩ := (hmem a).mp ha
          obtain ⟨hc1, hc2⟩ := (hmem c).mp hc
          have h1 := hpre a ha1 c hc1 hcomp
          have h2 := hpre c hc1 a ha1 (Vertex.comparable_symm a c hcomp)
          have hcost := Cost.eq_of_comparable_not_lt a.cost c.cost hcomp.2 h1 h2
          exact hne (Vertex.eq_of_parts a c hcomp.1.1 hcomp.1.2.1 hcomp.1.2.2 hcost)
        · exact ((hmem a).mp ha).2 (hc' ▸ hcomp)
      · rcases hc with hc | hc'
        · exact ((hmem c).mp hc).2 (ha' ▸ Vertex.comparable_symm a c hcomp)
        · exact hne (ha'.trans hc'.symm)
    · intro e he hce hlt hmem'
      rw [hres, List.mem_append, List.mem_singleton] at hmem'
      rcases hmem' with hmem' | hmem'
      · exact ((hmem e).mp hmem').2 hce
      · exact Cost.lt_irrefl ins.cost (hmem' ▸ hlt)

def C4wA : Vertex := ⟨0, none, false, ⟨0, 5, 5, 5⟩⟩

def C4wIns : Vertex := ⟨0, none, false, ⟨0, 3, 3, 3⟩⟩

theorem C4_witness : bucketAfterAdmit C4wIns [C4wA] = [C4wA] :=
  (C4_admission_preserves_frontier C4wIns [C4wA] (by decide)).2.1
    ⟨C4wA, by decide, by decide, by decide⟩

/-- Claim C5. For a candidate with no moves left and a fuel-consuming
unit type: when the position refuels, the fuel of any produced vertex is
reset to full capacity; otherwise at fuel at most 1 no vertex is produced;
otherwise fuel decreases by exactly one; and independently, when the
hit points after the recovery rule are non-positive, no vertex is
produced. -/
theorem C5_turn_boundary_fuel_and_health (env : Env) (u : UnitState) (v : Vertex)
    (hm : v.cost.moves_left ≤ 0) (hf : env.fuelCapacity ≠ 0) :
    (env.refueled (v.fill_probe u) = true →
      (∀ w, turn_change env u v = some w → w.cost.fuel_left = env.fuelCapacity) ∧
      (env.restored_hp (probeWithFuel (v.fill_probe u) env.fuelCapacity) ≤ 0 →
        turn_change env u v = none)) ∧
    (env.refueled (v.fill_probe u) = false → v.cost.fuel_left ≤ 1 →
      turn_change env u v = none) ∧
    (env.refueled (v.fill_probe u) = false → 1 < v.cost.fuel_left →
      (∀ w, turn_change env u v = some w → w.cost.fuel_left = v.cost.fuel_left - 1) ∧
      (env.restored_hp (probeWithFuel (v.fill_probe u) (v.cost.fuel_left - 1)) ≤ 0 →
        turn_change env u v = none)) := by
  have hpf : (v.fill_probe u).fuel = v.cost.fuel_left := rfl
  refine ⟨fun hr => ⟨fun w hw => ?_, fun hhp => ?_⟩, fun hr hle => ?_,
    fun hr hgt => ⟨fun w hw => ?_, fun hhp => ?_⟩⟩
  · simp only [turn_change, hp_step, if_pos hm, if_pos hf, hr, if_true] at hw
    by_cases hx : env.restored_hp (probeWithFuel (v.fill_probe u) env.fuelCapacity) ≤ 0
    · rw [if_pos hx] at hw
      exact absurd hw (by simp)
    · rw [if_neg hx] at hw
      injection hw with h
      rw [← h]
  · simp only [turn_change, hp_step, if_pos hm, if_pos hf, hr, if_true]
    rw [if_pos hhp]
  · simp only [turn_change, hp_step, if_pos hm, if_pos hf, hr, Bool.false_eq_true, if_false, hpf]
    rw [if_pos hle]
  · have hnle : ¬ v.cost.fuel_left ≤ 1 := by omega
    simp only [turn_change, hp_step, if_pos hm, if_pos hf, hr, Bool.false_eq_true, if_false, hpf] at hw
    rw [if_neg hnle] at hw
    by_cases hx : env.restored_hp (probeWithFuel (v.fill_probe u) (v.cost.fuel_left - 1)) ≤ 0
    · rw [if_pos hx] at hw
      exact absurd hw (by simp)
    · rw [if_neg hx] at hw
      injection hw with h
      rw [← h]
  · have hnle : ¬ v.cost.fuel_left ≤ 1 := by omega
    simp only [turn_change, hp_step, if_pos hm, if_pos hf, hr, Bool.false_eq_true, if_false, hpf]
    rw [if_neg hnle, if_pos hhp]

def C5wEnv : Env :=
  { neighborsDir := fun _ => [], visible := fun _ => true,
    can_move_to := fun _ _ => false, map_move_cost := fun _ _ => 1,
    move_rate := fun _ => 3, fuelCapacity := 5, refueled := fun _ => false,
    restored_hp := fun p => p.hp, transporter_for := fun _ => none,
    action_on_unit := fun _ _ _ => false, action_on_tile := fun _ _ _ => false,
    neighbors := fun _ => [], pays_mp := fun _ _ => 0 }

def C5wUnit : UnitState :=
  { tile := 0, transporter := none, transported_by := -1, moved := false,
    fuel := 1, hp := 10, moves_left := 0, stay := false }

def C5wVertex : Vertex := ⟨0, none, false, ⟨0, 0, 10, 1⟩⟩

theorem C5_witness : turn_change C5wEnv C5wUnit C5wVertex = none :=
  (C5_turn_boundary_fuel_and_health C5wEnv C5wUnit C5wVertex (by decide)
    (by decide)).2.1 (by decide) (by decide)

/-- None of the four expansion rules touches the turn counter: every
candidate they propose carries the turn count of its source vertex. -/
theorem candidates_turns (env : Env) (u : UnitState) (source : Vertex) :
    ∀ p ∈ expansion_candidates env u source,
      (p : Order × Vertex).2.cost.turns = source.cost.turns := by
  intro p hp
  simp only [expansion_candidates, List.mem_append] at hp
  rcases hp with ((hp | hp) | hp) | hp
  · simp only [move_candidates] at hp
    split at hp
    · simp at hp
    · rw [List.mem_filterMap] at hp
      obtain ⟨td, _, hf⟩ := hp
      split at hf
      · simp at hf
      · split at hf
        · injection hf with h
          rw [← h]
        · simp at hf
  · simp only [full_mp_candidates, List.mem_singleton] at hp
    rw [hp]
  · simp only [load_candidates, List.mem_append] at hp
    rcases hp with hp | hp
    · split at hp
      · split at hp
        · rw [List.mem_singleton] at hp
          rw [hp]
          rfl
        · simp at hp
      · simp at hp
    · rw [List.mem_filterMap] at hp
      obtain ⟨target, _, hf⟩ := hp
      split at hf
      · split at hf
        · injection hf with h
          rw [← h]
          rfl
        · simp at hf
      · simp at hf
  · simp only [unload_candidates] at hp
    split at hp
    · simp at hp
    · rw [List.mem_append] at hp
      rcases hp with hp | hp
      · split at hp
        · rw [List.mem_singleton] at hp
          rw [hp]
          rfl
        · simp at hp
      · rw [List.mem_flatMap] at hp
        obtain ⟨target, _, hmem⟩ := hp
        rw [List.mem_append] at hmem
        rcases hmem with hmem | hmem
        · split at hmem
          · rw [List.mem_singleton] at hmem
            rw [hmem]
            rfl
          · simp at hmem
        · split at hmem
          · rw [List.mem_singleton] at hmem
            rw [hmem]
            rfl
          · simp at hmem

/-- The turn-change block increments the turn counter by exactly one when
the candidate has no moves left, and copies it unchanged otherwise. -/
theorem turn_change_turns (env : Env) (u : UnitState) (c w : Vertex)
    (hw : turn_change env u c = some w) :
    (c.cost.moves_left ≤ 0 → w.cost.turns = c.cost.turns + 1) ∧
    (0 < c.cost.moves_left → w.cost.turns = c.cost.turns) := by
  constructor
  · intro hm
    simp only [turn_change, hp_step, if_pos hm] at hw
    split at hw
    · split at hw
      · split at hw
        · exact absurd hw (by simp)
        · injection hw with h
          rw [← h]
      · split at hw
        · exact absurd hw (by simp)
        · split at hw
          · exact absurd hw (by simp)
          · injection hw with h
            rw [← h]
    · split at hw
      · exact absurd hw (by simp)
      · injection hw with h
        rw [← h]
  · intro hm'
    have hm2 : ¬ c.cost.moves_left ≤ 0 := by omega
    simp only [turn_change, if_neg hm2] at hw
    injection hw with h
    rw [← h]

/-- Claim C6. Every candidate produced by the four expansion rules keeps
the turn count of its parent; the turn-change step increases it by exactly
one when moves are exhausted and copies it otherwise; hence every admitted
child has at least the turn count of its parent. -/
theorem C6_monotonic_turns (env : Env) (u : UnitState) (source : Vertex) :
    (∀ p ∈ expansion_candidates env u source,
      (p : Order × Vertex).2.cost.turns = source.cost.turns) ∧
    (∀ c w, turn_change env u c = some w →
      (c.cost.moves_left ≤ 0 → w.cost.turns = c.cost.turns + 1) ∧
      (0 < c.cost.moves_left → w.cost.turns = c.cost.turns)) ∧
    (∀ p ∈ expansion_candidates env u source, ∀ w,
      turn_change env u (p : Order × Vertex).2 = some w →
      source.cost.turns ≤ w.cost.turns) := by
  refine ⟨candidates_turns env u source,
    fun c w hw => turn_change_turns env u c w hw, ?_⟩
  intro p hp w hw
  have h1 := candidates_turns env u source p hp
  have h2 := turn_change_turns env u p.2 w hw
  by_cases hm : p.2.cost.moves_left ≤ 0
  · have h3 := h2.1 hm
    omega
  · have h3 := h2.2 (by omega)
    omega

def C6wEnv : Env :=
  { neighborsDir := fun _ => [], visible := fun _ => true,
    can_move_to := fun _ _ => false, map_move_cost := fun _ _ => 1,
    move_rate := fun _ => 3, fuelCapacity := 0, refueled := fun _ => false,
    restored_hp := fun p => p.hp, transporter_for := fun _ => none,
    action_on_unit := fun _ _ _ => false, action_on_tile := fun _ _ _ => false,
    neighbors := fun _ => [], pays_mp := fun _ _ => 0 }

def C6wUnit : UnitState :=
  { tile := 0, transporter := none, transported_by := -1, moved := false,
    fuel := 1, hp := 10, moves_left := 2, stay := false }

def C6wSource : Vertex := ⟨0, none, false, ⟨0, 2, 10, 1⟩⟩

def C6wCand : Order × Vertex := (Order.full_mp, ⟨0, none, false, ⟨0, 0, 10, 1⟩⟩)

def C6wChild : Vertex := ⟨0, none, false, ⟨1, 3, 10, 1⟩⟩

theorem C6_witness : C6wSource.cost.turns ≤ C6wChild.cost.turns :=
  (C6_monotonic_turns C6wEnv C6wUnit C6wSource).2.2 C6wCand (by decide)
    C6wChild (by decide)

def C1wNodeA : Node := ⟨⟨1, none, false, ⟨0, 0, 0, 0⟩⟩, []⟩

def C1wNodeB : Node := ⟨⟨2, none, false, ⟨0, 0, 0, 0⟩⟩, []⟩

def C1wBest : List (Nat × Node) := [(1, C1wNodeA), (2, C1wNodeB)]

def C1wPopped : Vertex := ⟨1, none, false, ⟨5, 0, 0, 0⟩⟩

/-- Claim C1. A popped vertex absent (by `vertex::operator==`) from the
Frontier bucket of its own location is nevertheless not skipped whenever
some entry with a larger key exists: the find_if result is compared
against the container end instead of the end of the equal range, and the
search expands the entry right after the bucket, which sits at a
different location. -/
theorem C1_stale_vertex_not_skipped :
    (∀ n ∈ bucketOf C1wBest C1wPopped.location, ¬ n.v.eqCpp C1wPopped) ∧
    staleLookup C1wBest C1wPopped = some C1wNodeB ∧
    C1wNodeB.v.location ≠ C1wPopped.location := by
  decide

def C3wUnit : UnitState :=
  { tile := 4, transporter := none, transported_by := -1, moved := false,
    fuel := 5, hp := 10, moves_left := 3, stay := false }

def C3wRoot : Node := ⟨⟨4, none, false, ⟨0, 0, 3, 10⟩⟩, []⟩

def C3wPrev : PFState := construct C6wUnit

/-- Claim C3. `unit_changed` does discard the retained state and reseed
with exactly one root vertex from the notified unit, but the root cost is
not captured field-by-field from the unit: the five-element cost
initializer of `insert_initial_vertex` shifts the values, so the reseeded
root carries moves_left = 0, health = unit.moves_left and
fuel_left = unit.hp instead of (unit.moves_left, unit.hp, unit.fuel). -/
theorem C3_reseed_cost_shifted :
    (unit_changed C3wPrev C3wUnit).best = [(4, C3wRoot)] ∧
    (unit_changed C3wPrev C3wUnit).queue = [C3wRoot] ∧
    C3wRoot.v.cost ≠ ⟨0, C3wUnit.moves_left, C3wUnit.hp, C3wUnit.fuel⟩ ∧
    C3wRoot.v.cost.moves_left = 0 ∧
    C3wRoot.v.cost.health = C3wUnit.moves_left ∧
    C3wRoot.v.cost.fuel_left = C3wUnit.hp := by
  decide

theorem queueTop_eq_none (l : List Node) (h : queueTop l = none) : l = [] := by
  cases l with
  | nil => rfl
  | cons a r => simp [queueTop] at h

theorem queueTop_mem (l : List Node) (n : Node) (h : queueTop l = some n) : n ∈ l := by
  cases l with
  | nil => simp [queueTop] at h
  | cons a r =>
    simp only [queueTop, Option.some.injEq] at h
    rw [← h]
    clear h
    induction r generalizing a with
    | nil => exact List.mem_singleton.mpr rfl
    | cons b s ih =>
      simp only [List.foldl_cons]
      by_cases hlt : Cost.lt b.v.cost a.v.cost
      · rw [if_pos hlt]
        exact List.mem_cons_of_mem a (ih b)
      · rw [if_neg hlt]
        rcases List.mem_cons.mp (ih a) with h | h
        · rw [h]
          exact List.mem_cons_self a _
        · exact List.mem_cons_of_mem a (List.mem_cons_of_mem b h)

theorem queueRemove_subset (n : Node) (l : List Node) :
    ∀ x ∈ queueRemove n l, x ∈ l := by
  induction l with
  | nil => simp [queueRemove]
  | cons a r ih =>
    intro x hx
    by_cases ha : a = n
    · simp only [queueRemove, if_pos ha] at hx
      exact List.mem_cons_of_mem a hx
    · simp only [queueRemove, if_neg ha] at hx
      rcases List.mem_cons.mp hx with h | h
      · exact h ▸ List.mem_cons_self a r
      · exact List.mem_cons_of_mem a (ih x h)

/-- Claim C9 (amended). The early-exit check of `run_search` never reads
the top of an empty queue during the first search after construction or
after `unit_changed`: the queue then holds exactly the root vertex and the
check runs before any pop. (In general the read can hit an empty queue,
see the counterexample.) -/
theorem C9_first_search_queue_nonempty (env : Env) (bound : Nat)
    (u u' : UnitState) (st : PFState) (d : Nat) :
    (run_search env bound (construct u) d).emptyTopRead = false ∧
    (run_search env bound (unit_changed st u') d).emptyTopRead = false := by
  have key : ∀ (s : PFState), s.queue ≠ [] → ∀ d',
      (run_search env bound s d').emptyTopRead = false := by
    intro s hs d'
    unfold run_search
    cases hb : (bucketOf s.best d').head? with
    | none => simp only [hb]
    | some e =>
      simp only [hb]
      cases hq : queueTop s.queue with
      | none => exact absurd (queueTop_eq_none s.queue hq) hs
      | some t =>
        simp only [hq]
        split
        · rfl
        · rfl
  refine ⟨key (construct u) ?_ d, key (unit_changed st u') ?_ d⟩
  · simp [construct, insert_initial_vertex]
  · simp [unit_changed, insert_initial_vertex]

def C9Env : Env :=
  { neighborsDir := fun t => if t = 0 then [(1, 0)] else [],
    visible := fun _ => true,
    can_move_to := fun _ _ => true,
    map_move_cost := fun _ _ => 1,
    move_rate := fun _ => 0,
    fuelCapacity := 0,
    refueled := fun _ => false,
    restored_hp := fun p => p.hp,
    transporter_for := fun _ => none,
    action_on_unit := fun _ _ _ => false,
    action_on_tile := fun _ _ _ => false,
    neighbors := fun _ => [],
    pays_mp := fun _ _ => 0 }

def C9Unit : UnitState :=
  { tile := 0, transporter := none, transported_by := -1, moved := false,
    fuel := 0, hp := 1, moves_left := 1, stay := false }

/-- Claim C9 fails on the code as stated: after a first `find_path` that
exhausts the queue without reaching its destination, a second `find_path`
towards a tile that already has a Frontier vertex evaluates the
early-exit check with an empty queue, so the `queue.top()` read does
occur on an empty queue. -/
theorem C9_counterexample :
    (find_path C9Env 10
      (find_path C9Env 10 (construct C9Unit) (some 2)).state (some 1)).emptyTopRead
      = true := by
  decide

theorem mem_bucketOf (best : List (Nat × Node)) (k : Nat) (n : Node) :
    n ∈ bucketOf best k ↔ (k, n) ∈ best := by
  unfold bucketOf
  rw [List.mem_map]
  constructor
  · rintro ⟨⟨e1, e2⟩, he, rfl⟩
    rw [List.mem_filter] at he
    have h1 : e1 = k := by simpa using he.2
    subst h1
    exact he.1
  · intro h
    exact ⟨(k, n), List.mem_filter.mpr ⟨h, by simp⟩, rfl⟩

theorem mem_mmSetBucket (best : List (Nat × Node)) (k : Nat) (nb : List Node) :
    ∀ e ∈ mmSetBucket best k nb, e ∈ best ∨ (e.1 = k ∧ e.2 ∈ nb) := by
  intro e he
  unfold mmSetBucket at he
  rw [List.mem_append, List.mem_append] at he
  rcases he with (he | he) | he
  · exact Or.inl (List.mem_filter.mp he).1
  · rw [List.mem_map] at he
    obtain ⟨n, hn, rfl⟩ := he
    exact Or.inr ⟨rfl, hn⟩
  · exact Or.inl (List.mem_filter.mp he).1

theorem mmSetBucket_mem_other (best : List (Nat × Node)) (k : Nat) (nb : List Node)
    (e : Nat × Node) (he : e ∈ best) (hk : e.1 ≠ k) : e ∈ mmSetBucket best k nb := by
  unfold mmSetBucket
  rw [List.mem_append, List.mem_append]
  rcases Nat.lt_or_ge e.1 k with h | h
  · exact Or.inl (Or.inl (List.mem_filter.mpr ⟨he, by simpa using h⟩))
  · have h2 : k < e.1 := lt_of_le_of_ne h (Ne.symm hk)
    exact Or.inr (List.mem_filter.mpr ⟨he, by simpa using h2⟩)

theorem mmSetBucket_mem_new (best : List (Nat × Node)) (k : Nat) (nb : List Node)
    (n : Node) (hn : n ∈ nb) : (k, n) ∈ mmSetBucket best k nb := by
  unfold mmSetBucket
  rw [List.mem_append, List.mem_append]
  exact Or.inl (Or.inr (List.mem_map.mpr ⟨n, hn, rfl⟩))

theorem turn_change_location (env : Env) (u : UnitState) (v w : Vertex)
    (hw : turn_change env u v = some w) : w.location = v.location := by
  by_cases hm : v.cost.moves_left ≤ 0
  · simp only [turn_change, hp_step, if_pos hm] at hw
    split at hw
    · split at hw
      · split at hw
        · exact absurd hw (by simp)
        · injection hw with h
          rw [← h]
      · split at hw
        · exact absurd hw (by simp)
        · split at hw
          · exact absurd hw (by simp)
          · injection hw with h
            rw [← h]
    · split at hw
      · exact absurd hw (by simp)
      · injection hw with h
        rw [← h]
  · simp only [turn_change, if_neg hm] at hw
    injection hw with h
    rw [← h]

/-- The driver invariants: multimap keys match the stored vertex
locations, a stored vertex with no steps is the root (it sits at the unit
tile), and every queued vertex has a non-empty Frontier bucket at its
location. -/
def Invariants (st : PFState) : Prop :=
  (∀ e ∈ st.best, e.1 = e.2.v.location) ∧
  (∀ e ∈ st.best, e.2.steps = [] → e.2.v.location = st.u.tile) ∧
  (∀ n ∈ st.queue, bucketOf st.best n.v.location ≠ [])

instance instDecInvariants (st : PFState) : Decidable (Invariants st) := by
  unfold Invariants
  infer_instance

/-- Replacing the bucket at key `k` with entries that either come from
that bucket or are new non-root vertices located at `k` preserves the key
and root invariants, keeps every non-empty bucket non-empty, and leaves a
non-empty bucket at `k`. -/
theorem setBucket_parts (st : PFState) (k : Nat) (nb : List Node)
    (hkeys : ∀ e ∈ st.best, e.1 = e.2.v.location)
    (hroot : ∀ e ∈ st.best, e.2.steps = [] → e.2.v.location = st.u.tile)
    (hnb : ∀ n ∈ nb, n ∈ bucketOf st.best k ∨ (n.v.location = k ∧ n.steps ≠ []))
    (hnbne : nb ≠ []) :
    (∀ e ∈ mmSetBucket st.best k nb, e.1 = e.2.v.location) ∧
    (∀ e ∈ mmSetBucket st.best k nb, e.2.steps = [] → e.2.v.location = st.u.tile) ∧
    (∀ k', bucketOf st.best k' ≠ [] → bucketOf (mmSetBucket st.best k nb) k' ≠ []) ∧
    bucketOf (mmSetBucket st.best k nb) k ≠ [] := by
  have hmemnew : ∀ n ∈ nb, n ∈ bucketOf (mmSetBucket st.best k nb) k :=
    fun n hn => (mem_bucketOf _ k n).mpr (mmSetBucket_mem_new st.best k nb n hn)
  refine ⟨?_, ?_, ?_, ?_⟩
  · intro e he
    rcases mem_mmSetBucket st.best k nb e he with he' | ⟨h1, h2⟩
    · exact hkeys e he'
    · rcases hnb e.2 h2 with hx | ⟨hx, _⟩
      · have h3 := hkeys (k, e.2) ((mem_bucketOf st.best k e.2).mp hx)
        rw [h1]
        exact h3
      · rw [h1, hx]
  · intro e he hsteps
    rcases mem_mmSetBucket st.best k nb e he with he' | ⟨h1, h2⟩
    · exact hroot e he' hsteps
    · rcases hnb e.2 h2 with hx | ⟨_, hx⟩
      · exact hroot (k, e.2) ((mem_bucketOf st.best k e.2).mp hx) hsteps
      · exact absurd hsteps hx
  · intro k' hk'
    by_cases hkk : k' = k
    · subst hkk
      obtain ⟨n0, hn0⟩ := List.exists_mem_of_ne_nil nb hnbne
      exact List.ne_nil_of_mem (hmemnew n0 hn0)
    · obtain ⟨m, hm⟩ := List.exists_mem_of_ne_nil _ hk'
      have h1 := (mem_bucketOf st.best k' m).mp hm
      have h2 := mmSetBucket_mem_other st.best k nb (k', m) h1 hkk
      exact List.ne_nil_of_mem ((mem_bucketOf _ k' m).mpr h2)
  · obtain ⟨n0, hn0⟩ := List.exists_mem_of_ne_nil nb hnbne
    exact List.ne_nil_of_mem (hmemnew n0 hn0)

/-- `maybe_insert_vertex` preserves the driver invariants and the unit. -/
theorem maybe_insert_invariants (env : Env) (st : PFState) (ps : List Step)
    (o : Order) (v : Vertex) (h : Invariants st) :
    Invariants (maybe_insert_vertex env st ps o v) ∧
    (maybe_insert_vertex env st ps o v).u = st.u := by
  obtain ⟨hkeys, hroot, hqloc⟩ := h
  cases htc : turn_change env st.u v with
  | none =>
    simp only [maybe_insert_vertex, htc]
    exact ⟨⟨hkeys, hroot, hqloc⟩, trivial⟩
  | some insert =>
    have hloc : insert.location = v.location := turn_change_location env st.u v insert htc
    simp only [maybe_insert_vertex, htc]
    by_cases hr2 : (admitScan Node.v insert (bucketOf st.best v.location)).2 = true
    · rw [if_pos hr2]
      have hnbh : ∀ n ∈ (admitScan Node.v insert (bucketOf st.best v.location)).1 ++
          [(⟨insert, ps ++ [⟨insert.location, insert.cost.turns, o⟩]⟩ : Node)],
          n ∈ bucketOf st.best v.location ∨ (n.v.location = v.location ∧ n.steps ≠ []) := by
        intro n hn
        rcases List.mem_append.mp hn with hn | hn
        · exact Or.inl (admitScan_subset Node.v insert _ n hn)
        · rw [List.mem_singleton] at hn
          subst hn
          exact Or.inr ⟨hloc, by simp⟩
      obtain ⟨p1, p2, p3, p4⟩ := setBucket_parts st v.location _ hkeys hroot hnbh (by simp)
      refine ⟨⟨p1, p2, ?_⟩, by trivial⟩
      intro n hn
      rcases List.mem_append.mp hn with hn | hn
      · exact p3 n.v.location (hqloc n hn)
      · rw [List.mem_singleton] at hn
        subst hn
        simpa [hloc] using p4
    · rw [if_neg hr2]
      have hfalse : (admitScan Node.v insert (bucketOf st.best v.location)).2 = false := by
        cases h2 : (admitScan Node.v insert (bucketOf st.best v.location)).2
        · rfl
        · exact absurd h2 hr2
      have hne := admitScan_false_ne_nil Node.v insert (bucketOf st.best v.location) hfalse
      have hnbh : ∀ n ∈ (admitScan Node.v insert (bucketOf st.best v.location)).1,
          n ∈ bucketOf st.best v.location ∨ (n.v.location = v.location ∧ n.steps ≠ []) :=
        fun n hn => Or.inl (admitScan_subset Node.v insert _ n hn)
      obtain ⟨p1, p2, p3, _⟩ := setBucket_parts st v.location _ hkeys hroot hnbh hne
      refine ⟨⟨p1, p2, ?_⟩, by trivial⟩
      intro n hn
      exact p3 n.v.location (hqloc n hn)

theorem foldl_insert_invariants (env : Env) (ps : List Step)
    (l : List (Order × Vertex)) (st : PFState) (h : Invariants st) :
    Invariants (l.foldl (fun s p => maybe_insert_vertex env s ps p.1 p.2) st) ∧
    (l.foldl (fun s p => maybe_insert_vertex env s ps p.1 p.2) st).u = st.u := by
  induction l generalizing st with
  | nil => exact ⟨h, rfl⟩
  | cons p rest ih =>
    simp only [List.foldl_cons]
    obtain ⟨h1, h2⟩ := maybe_insert_invariants env st ps p.1 p.2 h
    obtain ⟨h3, h4⟩ := ih (maybe_insert_vertex env st ps p.1 p.2) h1
    exact ⟨h3, h4.trans h2⟩

theorem expand_invariants (env : Env) (st : PFState) (source : Node)
    (h : Invariants st) :
    Invariants (expand env st source) ∧ (expand env st source).u = st.u :=
  foldl_insert_invariants env source.steps (expansion_candidates env st.u source.v) st h

theorem searchLoop_invariants (env : Env) (dest : Nat) (bound : Nat) (st : PFState)
    (h : Invariants st) :
    Invariants (searchLoop env dest bound st).2 ∧
    (searchLoop env dest bound st).2.u = st.u ∧
    ((searchLoop env dest bound st).1 = some true →
      bucketOf (searchLoop env dest bound st).2.best dest ≠ []) := by
  induction bound generalizing st with
  | zero =>
    refine ⟨h, rfl, fun hx => ?_⟩
    simp [searchLoop] at hx
  | succ n ih =>
    cases hq : queueTop st.queue with
    | none =>
      simp only [searchLoop, hq]
      exact ⟨h, by trivial, fun hx => by simp at hx⟩
    | some v =>
      by_cases hd : v.v.location = dest
      · simp only [searchLoop, hq, if_pos hd]
        refine ⟨h, by trivial, fun _ => ?_⟩
        have h1 := h.2.2 v (queueTop_mem st.queue v hq)
        rw [hd] at h1
        exact h1
      · have h1 : Invariants { st with queue := queueRemove v st.queue } :=
          ⟨h.1, h.2.1, fun n hn => h.2.2 n (queueRemove_subset v st.queue n hn)⟩
        cases hs : staleLookup st.best v.v with
        | none =>
          simp only [searchLoop, hq, if_neg hd, hs]
          exact ih _ h1
        | some parent =>
          simp only [searchLoop, hq, if_neg hd, hs]
          obtain ⟨h2, h3⟩ :=
            expand_invariants env { st with queue := queueRemove v st.queue } parent h1
          obtain ⟨h4, h5, h6⟩ := ih _ h2
          exact ⟨h4, h5.trans h3, h6⟩

theorem run_search_invariants (env : Env) (bound : Nat) (st : PFState) (dest : Nat)
    (h : Invariants st) :
    Invariants (run_search env bound st dest).state ∧
    (run_search env bound st dest).state.u = st.u ∧
    ((run_search env bound st dest).found = some true →
      bucketOf (run_search env bound st dest).state.best dest ≠ []) := by
  unfold run_search
  cases hb : (bucketOf st.best dest).head? with
  | none =>
    simp only [hb]
    exact searchLoop_invariants env dest bound st h
  | some e =>
    cases hq : queueTop st.queue with
    | none =>
      simp only [hb, hq]
      exact searchLoop_invariants env dest bound st h
    | some t =>
      simp only [hb, hq]
      by_cases hlt : ¬ Cost.lt t.v.cost e.v.cost
      · rw [if_pos hlt]
        refine ⟨h, rfl, fun _ hnil => ?_⟩
        rw [hnil] at hb
        simp at hb
      · rw [if_neg hlt]
        exact searchLoop_invariants env dest bound st h

theorem selMin_foldl_some (l : List Node) (b : Node) :
    ∃ c, l.foldl selMin (some b) = some c ∧ (c = b ∨ c ∈ l) := by
  induction l generalizing b with
  | nil => exact ⟨b, rfl, Or.inl rfl⟩
  | cons n r ih =>
    simp only [List.foldl_cons, selMin]
    by_cases hlt : Cost.lt n.v.cost b.v.cost
    · rw [if_pos hlt]
      obtain ⟨c, h1, h2⟩ := ih n
      refine ⟨c, h1, Or.inr ?_⟩
      rcases h2 with h2 | h2
      · exact h2 ▸ List.mem_cons_self n r
      · exact List.mem_cons_of_mem n h2
    · rw [if_neg hlt]
      obtain ⟨c, h1, h2⟩ := ih b
      refine ⟨c, h1, ?_⟩
      rcases h2 with h2 | h2
      · exact Or.inl h2
      · exact Or.inr (List.mem_cons_of_mem n h2)

theorem selMin_mem (l : List Node) (hl : l ≠ []) :
    ∃ c, l.foldl selMin none = some c ∧ c ∈ l := by
  cases l with
  | nil => exact absurd rfl hl
  | cons n r =>
    simp only [List.foldl_cons, selMin]
    obtain ⟨c, h1, h2⟩ := selMin_foldl_some r n
    refine ⟨c, h1, ?_⟩
    rcases h2 with h2 | h2
    · exact h2 ▸ List.mem_cons_self n r
    · exact List.mem_cons_of_mem n h2

/-- Claim C8. Under the driver invariants, when the search terminates
within the iteration bound and its early-exit check does not hit the
empty-queue read, `find_path` returns an empty step list exactly when the
destination is null, the unit is frozen by scenario, the unit already sits
on the destination, or the search exhausted the queue; in particular a
successful search yields a non-empty step list. -/
theorem C8_find_path_outcomes (env : Env) (bound : Nat) (st : PFState)
    (hinv : Invariants st) :
    (find_path env bound st none).steps = [] ∧
    (∀ d, (run_search env bound st d).found ≠ none →
      (run_search env bound st d).emptyTopRead = false →
      ((find_path env bound st (some d)).steps = [] ↔
        (st.u.stay = true ∨ st.u.tile = d ∨
          (run_search env bound st d).found = some false))) := by
  refine ⟨rfl, ?_⟩
  intro d hfound hflag
  by_cases hstay : st.u.stay = true
  · refine ⟨fun _ => Or.inl hstay, fun _ => ?_⟩
    simp [find_path, hstay]
  · by_cases htile : st.u.tile = d
    · refine ⟨fun _ => Or.inr (Or.inl htile), fun _ => ?_⟩
      simp [find_path, hstay, htile]
    · simp only [find_path, hstay, htile, if_false, Bool.false_eq_true]
      cases hf : (run_search env bound st d).found with
      | none => exact absurd hf hfound
      | some b =>
        cases b with
        | false => simp [hf, htile]
        | true =>
          obtain ⟨⟨hkeys', hroot', _⟩, hu', hbne⟩ :=
            run_search_invariants env bound st d hinv
          obtain ⟨c, hsel, hcmem⟩ :=
            selMin_mem (bucketOf (run_search env bound st d).state.best d) (hbne hf)
          simp only [hf, hsel]
          constructor
          · intro hsteps
            have h1 := (mem_bucketOf _ d c).mp hcmem
            have h2 := hroot' (d, c) h1 hsteps
            have h3 := hkeys' (d, c) h1
            rw [hu'] at h2
            exact absurd (h3.trans h2).symm htile
          · intro hor
            rcases hor with h | h | h
            · exact h.elim
            · exact h.elim
            · exact absurd h (by simp)

theorem C8_witness :
    (find_path C6wEnv 5 (construct C6wUnit) (some 1)).steps = [] :=
  ((C8_find_path_outcomes C6wEnv 5 (construct C6wUnit) (by decide)).2 1
    (by decide) (by decide)).mpr (by decide)

end PathFinder
